import Mathlib

/-!
Verification of the seat-allocation library `rust-voting`
(`src/lib.rs`, `src/highest_averages.rs`).

The embedding mirrors the Rust source:

* `Method` is the enum of `highest_averages.rs`.
* `Divisors::next` produces, at index `i`, the rational
  `Rational::new(num, den)`; we record the numerator and denominator
  pair (`divisorNum`, `divisorDen`) and the resulting value `divisor`.
  For `HuntingtonHill` the source multiplies by `-1`, which we fold
  into the numerator (`Rational::new((i+1)*(i+2), 1) * -1` has value
  `-(i+1)(i+2) / 1`).
* `allocate_seats` builds, per divisor rank (`row`), one entry
  `(party index, row, quotient)` per party, where the quotient is
  `Rational::new(1, votes) * divisor`, i.e. the exact rational
  `divisorNum / (divisorDen * votes)` (`Rat.divInt`).  When a party
  has zero votes, `Rational::new(1, 0)` panics in `num_rational`;
  this is modelled by the `AllocResult.panic` outcome.
* Rust's `matrix.sort_by(|e1, e2| e1.2.cmp(&e2.2))` is a stable sort
  by ascending quotient.  Any stable sorting algorithm with respect to
  a total preorder computes the same list, so it is modelled by the
  stable insertion sort `sortL` (later elements are inserted after
  earlier elements with an equal quotient).
* The `for (row, divisor) in self.divisors().enumerate()` loop over
  the infinite divisor iterator is modelled with explicit fuel; the
  outcome `AllocResult.outOfFuel` means the loop has not finished
  within the given number of iterations.
-/

/-- The `Method` enum of `highest_averages.rs`. -/
inductive Method : Type
  | dHondt
  | sainteLague
  | imperiali
  | huntingtonHill
  | danish
deriving DecidableEq

/-- Numerator handed to `Rational::new` by `Divisors::next` at index `i`
(with the trailing `* -1` of Huntington-Hill folded in). -/
def divisorNum (m : Method) (i : ℕ) : ℤ :=
  match m with
  | .dHondt => (i : ℤ) + 1
  | .sainteLague => (i : ℤ) * 2 + 1
  | .imperiali => (i : ℤ) + 2
  | .huntingtonHill => (((i : ℤ) + 1) * ((i : ℤ) + 2)) * (-1)
  | .danish => (i : ℤ) * 3 + 1

/-- Denominator handed to `Rational::new` by `Divisors::next`:
`2` for Imperiali, `1` for every other method. -/
def divisorDen (m : Method) : ℤ :=
  match m with
  | .imperiali => 2
  | _ => 1

/-- Value of the divisor produced by `Divisors::next` at index `i`. -/
def divisor (m : Method) (i : ℕ) : ℚ :=
  Rat.divInt (divisorNum m i) (divisorDen m)

/-- Value of `Rational::new(1, votes) * divisor`, the quotient the
allocator stores for a party with `v` votes at rank `i`:
the exact rational `divisorNum / (divisorDen * v)`.
(Only meaningful for `v ≠ 0`; for `v = 0` the Rust code panics before
this value is used, see `loop`.) -/
def quotient (m : Method) (i : ℕ) (v : ℕ) : ℚ :=
  Rat.divInt (divisorNum m i) (divisorDen m * (v : ℤ))

/-- One tuple `(party_index, row, quotient)` as pushed onto `matrix`. -/
structure Entry : Type where
  party : ℕ
  row : ℕ
  q : ℚ
deriving DecidableEq

/-- The entries pushed for one divisor row, starting at party index `i`:
`for (idx, party) in parties.iter().enumerate() { matrix.push((idx, row, quotient)) }`. -/
def rowEntriesAux (m : Method) (r : ℕ) : ℕ → List ℕ → List Entry
  | _, [] => []
  | i, v :: vs => ⟨i, r, quotient m r v⟩ :: rowEntriesAux m r (i + 1) vs

/-- The entries pushed for divisor row `r` (party indices from `0`). -/
def rowEntries (m : Method) (r : ℕ) (parties : List ℕ) : List Entry :=
  rowEntriesAux m r 0 parties

/-- Insert an entry into an ascending-sorted list, after all entries with
a smaller or equal quotient (so that a stable sort results). -/
def insertEntry (e : Entry) : List Entry → List Entry
  | [] => [e]
  | x :: xs => if x.q ≤ e.q then x :: insertEntry e xs else e :: x :: xs

/-- Model of `matrix.sort_by(|e1, e2| e1.2.cmp(&e2.2))`: the stable
ascending sort by quotient (insertion from the left; a stable sort with
respect to a total preorder is unique, so this computes the same list
as Rust's stable merge sort). -/
def sortL (l : List Entry) : List Entry :=
  l.foldl (fun acc e => insertEntry e acc) []

/-- The tail of `allocate_seats`:
`let mut seats = vec![0; parties.len()]; for seat in matrix[0..nb_seats] { seats[seat.0] += 1; }`. -/
def seatsOf (n : ℕ) (top : List Entry) : List ℕ :=
  top.foldl (fun seats e => seats.set e.party (seats.getD e.party 0 + 1))
    (List.replicate n 0)

/-- Outcome of running `allocate_seats` with a fuel bound on the number
of divisor-loop iterations. -/
inductive AllocResult : Type
  | ok (seats : List ℕ)
  | panic
  | outOfFuel
deriving DecidableEq

/-- The divisor loop of `allocate_seats`.  Each iteration pushes one row
of quotients (panicking, like `Rational::new(1, 0)`, when some party has
zero votes), then either continues because fewer quotients than seats
exist, or sorts the matrix in place and breaks when no entry of the top
`nb_seats` slice stems from the row just added. -/
def loop (m : Method) (nbSeats : ℕ) (parties : List ℕ) :
    ℕ → List Entry → ℕ → AllocResult
  | 0, _, _ => .outOfFuel
  | fuel + 1, matrix, row =>
    if parties.any (· == 0) then .panic
    else
      let matrix' := matrix ++ rowEntries m row parties
      if matrix'.length < nbSeats then
        loop m nbSeats parties fuel matrix' (row + 1)
      else
        let sorted := sortL matrix'
        if (sorted.take nbSeats).any (fun e => e.row == row) then
          loop m nbSeats parties fuel sorted (row + 1)
        else
          .ok (seatsOf parties.length (sorted.take nbSeats))

/-- `HighestAverages::allocate_seats(nb_seats, parties)`, run for at most
`fuel` iterations of the divisor loop. -/
def allocate_seats (m : Method) (nbSeats : ℕ) (parties : List ℕ)
    (fuel : ℕ) : AllocResult :=
  loop m nbSeats parties fuel [] 0

/-! ### Basic properties of the insertion sort -/

theorem insertEntry_perm (e : Entry) (l : List Entry) :
    (insertEntry e l).Perm (e :: l) := by
  induction l with
  | nil => exact List.Perm.refl _
  | cons x xs ih =>
    simp only [insertEntry]
    split
    · exact (ih.cons x).trans (List.Perm.swap e x xs)
    · exact List.Perm.refl _

theorem sortL_foldl_perm (l acc : List Entry) :
    (l.foldl (fun acc e => insertEntry e acc) acc).Perm (acc ++ l) := by
  induction l generalizing acc with
  | nil => simp
  | cons a t ih =>
    simp only [List.foldl_cons]
    refine (ih (insertEntry a acc)).trans ?_
    refine (((insertEntry_perm a acc).append_right t).trans ?_)
    simpa using (show ((acc ++ (a :: t)).Perm (a :: (acc ++ t))) from
      List.perm_middle).symm

theorem sortL_perm (l : List Entry) : (sortL l).Perm l := by
  simpa using sortL_foldl_perm l []

theorem sortL_length (l : List Entry) : (sortL l).length = l.length :=
  (sortL_perm l).length_eq

theorem mem_sortL {e : Entry} {l : List Entry} : e ∈ sortL l ↔ e ∈ l :=
  (sortL_perm l).mem_iff

/-! ### Properties of the seat-counting fold -/

theorem seatsOf_foldl_length :
    ∀ (top : List Entry) (acc : List ℕ),
      (top.foldl (fun seats e => seats.set e.party (seats.getD e.party 0 + 1))
        acc).length = acc.length
  | [], _ => rfl
  | e :: t, acc => by
    rw [List.foldl_cons, seatsOf_foldl_length t _, List.length_set]

theorem seatsOf_length (n : ℕ) (top : List Entry) : (seatsOf n top).length = n := by
  unfold seatsOf
  rw [seatsOf_foldl_length, List.length_replicate]

theorem sum_set_getD_succ (l : List ℕ) (i : ℕ) (h : i < l.length) :
    (l.set i (l.getD i 0 + 1)).sum = l.sum + 1 := by
  induction l generalizing i with
  | nil => simp at h
  | cons a t ih =>
    cases i with
    | zero => simp [List.getD]; omega
    | succ j =>
      have hj : j < t.length := by simpa using h
      simp only [List.set, List.getD_cons_succ, List.sum_cons]
      rw [ih j hj]
      omega

theorem seatsOf_foldl_sum (top : List Entry) (acc : List ℕ)
    (h : ∀ e ∈ top, e.party < acc.length) :
    (top.foldl (fun seats e => seats.set e.party (seats.getD e.party 0 + 1))
      acc).sum = acc.sum + top.length := by
  induction top generalizing acc with
  | nil => simp
  | cons e t ih =>
    simp only [List.foldl_cons, List.length_cons]
    have he : e.party < acc.length := h e (List.mem_cons_self e t)
    have hlen : (acc.set e.party (acc.getD e.party 0 + 1)).length = acc.length := by
      simp
    rw [ih _ (by intro x hx; rw [hlen]; exact h x (List.mem_cons_of_mem _ hx))]
    rw [sum_set_getD_succ acc e.party he]
    omega

theorem seatsOf_sum (n : ℕ) (top : List Entry)
    (h : ∀ e ∈ top, e.party < n) : (seatsOf n top).sum = top.length := by
  unfold seatsOf
  rw [seatsOf_foldl_sum top (List.replicate n 0)
    (fun e he => by rw [List.length_replicate]; exact h e he)]
  have hz : (List.replicate n (0 : ℕ)).sum = 0 := by simp
  omega

/-! ### Properties of the rows of pushed entries -/

theorem mem_rowEntriesAux {m : Method} {r : ℕ} {e : Entry} :
    ∀ {i : ℕ} {vs : List ℕ}, e ∈ rowEntriesAux m r i vs ↔
      ∃ j : ℕ, ∃ hj : j < vs.length, e = ⟨i + j, r, quotient m r vs[j]⟩ := by
  intro i vs
  induction vs generalizing i with
  | nil => simp [rowEntriesAux]
  | cons v t ih =>
    simp only [rowEntriesAux, List.mem_cons, ih]
    constructor
    · rintro (rfl | ⟨j, hj, rfl⟩)
      · exact ⟨0, by simp, by simp⟩
      · exact ⟨j + 1, by simpa using hj, by simp; omega⟩
    · rintro ⟨j, hj, rfl⟩
      cases j with
      | zero => left; simp
      | succ k =>
        right
        exact ⟨k, by simpa using hj, by simp; omega⟩

theorem mem_rowEntries {m : Method} {r : ℕ} {parties : List ℕ} {e : Entry} :
    e ∈ rowEntries m r parties ↔
      ∃ j : ℕ, ∃ hj : j < parties.length, e = ⟨j, r, quotient m r parties[j]⟩ := by
  simpa using (mem_rowEntriesAux : e ∈ rowEntriesAux m r 0 parties ↔ _)

theorem rowEntriesAux_length (m : Method) (r : ℕ) :
    ∀ (i : ℕ) (vs : List ℕ), (rowEntriesAux m r i vs).length = vs.length := by
  intro i vs
  induction vs generalizing i with
  | nil => rfl
  | cons v t ih => simpa [rowEntriesAux] using ih (i + 1)

theorem rowEntries_length (m : Method) (r : ℕ) (parties : List ℕ) :
    (rowEntries m r parties).length = parties.length :=
  rowEntriesAux_length m r 0 parties

theorem rowEntries_party_lt {m : Method} {r : ℕ} {parties : List ℕ} {e : Entry}
    (h : e ∈ rowEntries m r parties) : e.party < parties.length := by
  obtain ⟨j, hj, rfl⟩ := mem_rowEntries.1 h
  exact hj

theorem rowEntries_row_eq {m : Method} {r : ℕ} {parties : List ℕ} {e : Entry}
    (h : e ∈ rowEntries m r parties) : e.row = r := by
  obtain ⟨j, hj, rfl⟩ := mem_rowEntries.1 h
  rfl

/-! ### Generic facts about the divisor loop -/

theorem loop_fuel_mono {m : Method} {N : ℕ} {parties : List ℕ} :
    ∀ {fuel fuel' : ℕ} {matrix : List Entry} {row : ℕ} {s : List ℕ},
      loop m N parties fuel matrix row = .ok s → fuel ≤ fuel' →
      loop m N parties fuel' matrix row = .ok s := by
  intro fuel
  induction fuel with
  | zero => intro fuel' matrix row s h; simp [loop] at h
  | succ f ih =>
    intro fuel' matrix row s h hle
    obtain ⟨f', rfl⟩ : ∃ f', fuel' = f' + 1 := ⟨fuel' - 1, by omega⟩
    have hff : f ≤ f' := by omega
    simp only [loop] at h ⊢
    by_cases h1 : (parties.any fun x => x == 0) = true
    · rw [if_pos h1] at h ⊢; exact h
    · rw [if_neg h1] at h ⊢
      by_cases h2 : (matrix ++ rowEntries m row parties).length < N
      · rw [if_pos h2] at h ⊢; exact ih h hff
      · rw [if_neg h2] at h ⊢
        by_cases h3 : ((List.take N (sortL (matrix ++ rowEntries m row parties))).any
            fun e => e.row == row) = true
        · rw [if_pos h3] at h ⊢; exact ih h hff
        · rw [if_neg h3] at h ⊢; exact h

theorem loop_ok_shape {m : Method} {N : ℕ} {parties : List ℕ} :
    ∀ {fuel : ℕ} {matrix : List Entry} {row : ℕ} {s : List ℕ},
      (∀ e ∈ matrix, e.party < parties.length) →
      loop m N parties fuel matrix row = .ok s →
      s.length = parties.length ∧ s.sum = N := by
  intro fuel
  induction fuel with
  | zero => intro matrix row s _ h; simp [loop] at h
  | succ f ih =>
    intro matrix row s hpar h
    simp only [loop] at h
    split at h
    · exact absurd h (by simp)
    · have hpar' : ∀ e ∈ matrix ++ rowEntries m row parties,
          e.party < parties.length := by
        intro e he
        rcases List.mem_append.1 he with he | he
        · exact hpar e he
        · exact rowEntries_party_lt he
      split at h
      · exact ih hpar' h
      · rename_i hlen
        have hsortmem : ∀ e ∈ sortL (matrix ++ rowEntries m row parties),
            e.party < parties.length := fun e he => hpar' e (mem_sortL.1 he)
        split at h
        · exact ih hsortmem h
        · have hs : s = seatsOf parties.length
              ((sortL (matrix ++ rowEntries m row parties)).take N) := by
            cases h; rfl
          subst hs
          refine ⟨seatsOf_length _ _, ?_⟩
          rw [seatsOf_sum _ _ (fun e he => hsortmem e (List.mem_of_mem_take he))]
          rw [List.length_take, sortL_length]
          omega

/-! ### Claim theorems (first batch) -/

/-- C4: `allocate_seats` with the Imperiali method, 13 seats and vote counts
`[480, 310, 940, 270]` returns exactly the seat vector `[3, 1, 8, 1]`
(for any fuel bound of at least 20 loop iterations). -/
theorem imperiali_verkiezingen2018 (fuel : ℕ) (h : 20 ≤ fuel) :
    allocate_seats .imperiali 13 [480, 310, 940, 270] fuel =
      .ok [3, 1, 8, 1] :=
  loop_fuel_mono (by decide) h

/-- C4 witness: the concrete run at fuel 20. -/
theorem imperiali_verkiezingen2018_witness :
    allocate_seats .imperiali 13 [480, 310, 940, 270] 20 =
      .ok [3, 1, 8, 1] :=
  imperiali_verkiezingen2018 20 (le_refl 20)

/-- C10: with an empty parties list and a positive seat count, the divisor
loop never terminates: every rank adds zero entries, so the matrix stays
smaller than `nb_seats` forever and every fuel bound is exhausted. -/
theorem allocate_seats_empty_parties_diverges (m : Method) (N : ℕ)
    (hN : 0 < N) (fuel : ℕ) :
    allocate_seats m N [] fuel = .outOfFuel := by
  suffices h : ∀ (f : ℕ) (row : ℕ), loop m N [] f [] row = .outOfFuel from h fuel 0
  intro f
  induction f with
  | zero => intro row; simp [loop]
  | succ g ih =>
    intro row
    simp only [loop, List.any_nil, rowEntries, rowEntriesAux, List.append_nil,
      List.length_nil, if_neg (Bool.false_ne_true), if_pos hN]
    exact ih (row + 1)

/-- C10 witness: one seat, no parties, fuel 5. -/
theorem allocate_seats_empty_parties_diverges_witness :
    allocate_seats Method.dHondt 1 [] 5 = .outOfFuel :=
  allocate_seats_empty_parties_diverges Method.dHondt 1 (by decide) 5

/-- C1 counterexample: with a zero-vote party the computation does not
return normally — `Rational::new(1, 0)` panics while building the very
first quotient row, even though the other party has positive votes. -/
theorem zero_votes_panic_cex :
    allocate_seats .dHondt 1 [0, 1] 1 = .panic := by decide

/-- C1 (amended): in `allocate_seats` the vote count is the denominator of
the quotient (`Rational::new(1, votes) * divisor`), so whenever some party
has a vote count of 0 the call panics instead of returning; no zero
quotient is ever produced for that party. -/
theorem zero_votes_panic (m : Method) (N : ℕ) (parties : List ℕ)
    (fuel : ℕ) (hz : 0 ∈ parties) (hf : 0 < fuel) :
    allocate_seats m N parties fuel = .panic := by
  obtain ⟨f, rfl⟩ : ∃ f, fuel = f + 1 := ⟨fuel - 1, by omega⟩
  have hany : (parties.any fun x => x == 0) = true :=
    List.any_eq_true.2 ⟨0, hz, by decide⟩
  simp only [allocate_seats, loop]
  rw [if_pos hany]

/-- C1 witness for the amended claim: method D'Hondt, 2 seats,
votes `[3, 0]`, fuel 4. -/
theorem zero_votes_panic_witness :
    allocate_seats .dHondt 2 [3, 0] 4 = .panic :=
  zero_votes_panic .dHondt 2 [3, 0] 4 (by decide) (by decide)

/-- C9 counterexample: with `nb_seats = 0` the code still computes the
first quotient row, so for the parties list `[0]` it panics on
`Rational::new(1, 0)` instead of returning the all-zero seat vector. -/
theorem zero_seats_zero_votes_cex :
    allocate_seats .dHondt 0 [0] 1 = .panic := by decide

theorem allocate_seats_zero_aux (m : Method) (parties : List ℕ)
    (fuel : ℕ) (hpos : ∀ v ∈ parties, 0 < v) (hf : 0 < fuel) :
    allocate_seats m 0 parties fuel =
      .ok (List.replicate parties.length 0) := by
  obtain ⟨f, rfl⟩ : ∃ f, fuel = f + 1 := ⟨fuel - 1, by omega⟩
  have hany : ¬((parties.any fun x => x == 0) = true) := by
    intro h
    obtain ⟨x, hx, hx0⟩ := List.any_eq_true.1 h
    have : x = 0 := by simpa using hx0
    exact absurd (hpos x hx) (by omega)
  simp only [allocate_seats, loop]
  rw [if_neg hany, if_neg (by omega), if_neg (by simp)]
  rw [List.take_zero]
  rfl

/-- C9 (amended): with `nb_seats = 0` and all-positive vote counts,
`allocate_seats` returns the all-zero seat vector after computing exactly
one quotient row (the first loop iteration always pushes a full row, so a
zero-vote party still panics even when zero seats are requested); in
particular `allocate_seats(DHondt, 0, [100, 50]) = [0, 0]`. -/
theorem zero_seats_returns_zero_vector (m : Method) (parties : List ℕ)
    (fuel : ℕ) (hpos : ∀ v ∈ parties, 0 < v) (hf : 0 < fuel) :
    allocate_seats m 0 parties fuel =
      .ok (List.replicate parties.length 0) :=
  allocate_seats_zero_aux m parties fuel hpos hf

/-- C9 witness: `allocate_seats(DHondt, 0, [100, 50]) = [0, 0]`. -/
theorem zero_seats_returns_zero_vector_witness :
    allocate_seats .dHondt 0 [100, 50] 1 = .ok [0, 0] :=
  zero_seats_returns_zero_vector .dHondt [100, 50] 1
    (by intro v hv; simp at hv; rcases hv with h | h <;> omega) (by decide)

/-- C3: whenever `allocate_seats` returns a seat vector (under the
well-formedness hypothesis of the claim: some party has positive votes or
no seats are requested), the vector sums to exactly `nb_seats`. -/
theorem allocate_seats_sum (m : Method) (N : ℕ) (parties : List ℕ)
    (fuel : ℕ) (s : List ℕ)
    (_hwf : (∃ v ∈ parties, 0 < v) ∨ N = 0)
    (h : allocate_seats m N parties fuel = .ok s) : s.sum = N :=
  (loop_ok_shape (by intro e he; simp at he) h).2

/-- C3 witness: D'Hondt, 2 seats, votes `[100, 50]`. -/
theorem allocate_seats_sum_witness :
    allocate_seats .dHondt 2 [100, 50] 5 = .ok [1, 1] ∧
      ([1, 1] : List ℕ).sum = 2 :=
  ⟨by decide, allocate_seats_sum .dHondt 2 [100, 50] 5 [1, 1]
    (Or.inl ⟨100, by decide, by decide⟩) (by decide)⟩

/-- C6: whenever `allocate_seats` returns a seat vector, its length equals
the length of the parties list. -/
theorem allocate_seats_length (m : Method) (N : ℕ) (parties : List ℕ)
    (fuel : ℕ) (s : List ℕ)
    (h : allocate_seats m N parties fuel = .ok s) :
    s.length = parties.length :=
  (loop_ok_shape (by intro e he; simp at he) h).1

/-- C6 witness: Sainte-Laguë, 3 seats, votes `[5, 3, 1]`. -/
theorem allocate_seats_length_witness :
    allocate_seats .sainteLague 3 [5, 3, 1] 6 = .ok [2, 1, 0] ∧
      ([2, 1, 0] : List ℕ).length = ([5, 3, 1] : List ℕ).length :=
  ⟨by decide, allocate_seats_length .sainteLague 3 [5, 3, 1] 6 [2, 1, 0]
    (by decide)⟩

/-- C5: the first five divisors of each method match the closed-form
table exactly (as exact rationals), and the Huntington-Hill divisor at
rank `i` is `-(i+1)(i+2)`. -/
theorem divisor_table :
    (List.range 5).map (divisor .dHondt) = [1, 2, 3, 4, 5] ∧
    (List.range 5).map (divisor .sainteLague) = [1, 3, 5, 7, 9] ∧
    (List.range 5).map (divisor .imperiali) = [1, 3/2, 2, 5/2, 3] ∧
    (List.range 5).map (divisor .danish) = [1, 4, 7, 10, 13] ∧
    ∀ i : ℕ, divisor .huntingtonHill i = -(((i : ℚ) + 1) * ((i : ℚ) + 2)) := by
  refine ⟨by decide, by decide, ?_, by decide, ?_⟩
  · rw [show List.range 5 = [0, 1, 2, 3, 4] from rfl]
    simp only [List.map]
    norm_num [divisor, divisorNum, divisorDen, Rat.divInt_eq_div]
  · intro i
    simp only [divisor, divisorNum, divisorDen]
    rw [Rat.divInt_one]
    push_cast
    ring

/-! ### Scale invariance machinery (claim C8) -/

theorem list_any_congr {α : Type} {p q : α → Bool} :
    ∀ {l : List α}, (∀ x ∈ l, p x = q x) → l.any p = l.any q
  | [], _ => rfl
  | a :: t, h => by
    simp only [List.any_cons]
    rw [h a (List.mem_cons_self a t),
      list_any_congr (fun x hx => h x (List.mem_cons_of_mem a hx))]

/-- Scaling every vote count by `c` divides every stored quotient by `c`. -/
def scaleQ (c : ℕ) (e : Entry) : Entry :=
  ⟨e.party, e.row, e.q / (c : ℚ)⟩

theorem quotient_scale (m : Method) (r : ℕ) (c v : ℕ) :
    quotient m r (c * v) = quotient m r v / (c : ℚ) := by
  unfold quotient
  rw [Rat.divInt_eq_div, Rat.divInt_eq_div, div_div]
  congr 1
  push_cast
  ring

theorem rowEntriesAux_scale (m : Method) (r : ℕ) (c : ℕ) :
    ∀ (i : ℕ) (vs : List ℕ),
      rowEntriesAux m r i (vs.map (fun v => c * v)) =
        (rowEntriesAux m r i vs).map (scaleQ c) := by
  intro i vs
  induction vs generalizing i with
  | nil => rfl
  | cons v t ih =>
    simp only [List.map_cons, rowEntriesAux, ih (i + 1)]
    rw [quotient_scale]
    rfl

theorem rowEntries_scale (m : Method) (r : ℕ) (c : ℕ) (parties : List ℕ) :
    rowEntries m r (parties.map (fun v => c * v)) =
      (rowEntries m r parties).map (scaleQ c) :=
  rowEntriesAux_scale m r c 0 parties

theorem scaleQ_le_iff {c : ℕ} (hc : 0 < c) (a b : Entry) :
    ((scaleQ c a).q ≤ (scaleQ c b).q) ↔ (a.q ≤ b.q) := by
  have hcq : (0 : ℚ) < (c : ℚ) := by exact_mod_cast hc
  exact div_le_div_iff_of_pos_right hcq

theorem insertEntry_scale {c : ℕ} (hc : 0 < c) (e : Entry) (l : List Entry) :
    insertEntry (scaleQ c e) (l.map (scaleQ c)) =
      (insertEntry e l).map (scaleQ c) := by
  induction l with
  | nil => rfl
  | cons x xs ih =>
    simp only [List.map_cons, insertEntry]
    by_cases h : x.q ≤ e.q
    · rw [if_pos ((scaleQ_le_iff hc x e).2 h), if_pos h, List.map_cons, ih]
    · rw [if_neg (fun hq => h ((scaleQ_le_iff hc x e).1 hq)), if_neg h]
      rfl

theorem sortL_scale {c : ℕ} (hc : 0 < c) (l : List Entry) :
    sortL (l.map (scaleQ c)) = (sortL l).map (scaleQ c) := by
  suffices h : ∀ (l acc : List Entry),
      (l.map (scaleQ c)).foldl (fun acc e => insertEntry e acc)
          (acc.map (scaleQ c)) =
        (l.foldl (fun acc e => insertEntry e acc) acc).map (scaleQ c) by
    simpa using h l []
  intro l
  induction l with
  | nil => intro acc; rfl
  | cons a t ih =>
    intro acc
    simp only [List.map_cons, List.foldl_cons]
    rw [insertEntry_scale hc, ih]

theorem seatsOf_scale (c : ℕ) (n : ℕ) (top : List Entry) :
    seatsOf n (top.map (scaleQ c)) = seatsOf n top := by
  unfold seatsOf
  suffices h : ∀ (top : List Entry) (acc : List ℕ),
      (top.map (scaleQ c)).foldl
          (fun seats e => seats.set e.party (seats.getD e.party 0 + 1)) acc =
        top.foldl
          (fun seats e => seats.set e.party (seats.getD e.party 0 + 1)) acc from
    h top _
  intro top
  induction top with
  | nil => intro acc; rfl
  | cons e t ih => intro acc; simpa [scaleQ] using ih _

/-- Scale invariance at the level of the divisor loop: running on votes
multiplied by a positive constant `c` is the run on the original votes
with every stored quotient divided by `c`; the control flow and the final
seat vector coincide for every fuel bound. -/
theorem loop_scale {c : ℕ} (hc : 0 < c) (m : Method) (N : ℕ)
    (parties : List ℕ) :
    ∀ (fuel : ℕ) (matrix : List Entry) (row : ℕ),
      loop m N (parties.map (fun v => c * v)) fuel (matrix.map (scaleQ c)) row =
        loop m N parties fuel matrix row := by
  intro fuel
  induction fuel with
  | zero => intro matrix row; rfl
  | succ f ih =>
    intro matrix row
    simp only [loop]
    have hguard : ((parties.map (fun v => c * v)).any fun x => x == 0) =
        (parties.any fun x => x == 0) := by
      rw [List.any_map]
      refine list_any_congr (fun v _ => ?_)
      show (c * v == 0) = (v == 0)
      rcases Nat.eq_zero_or_pos v with rfl | hv
      · simp
      · have h1 : c * v ≠ 0 := by positivity
        have h2 : v ≠ 0 := by omega
        simp [h1, h2]
    rw [hguard]
    by_cases h1 : (parties.any fun x => x == 0) = true
    · rw [if_pos h1, if_pos h1]
    · rw [if_neg h1, if_neg h1]
      rw [rowEntries_scale, ← List.map_append]
      rw [List.length_map]
      by_cases h2 : (matrix ++ rowEntries m row parties).length < N
      · rw [if_pos h2, if_pos h2]
        exact ih _ _
      · rw [if_neg h2, if_neg h2]
        rw [sortL_scale hc, ← List.map_take]
        have hany : ((((sortL (matrix ++ rowEntries m row parties)).take N).map
            (scaleQ c)).any fun e => e.row == row) =
            (((sortL (matrix ++ rowEntries m row parties)).take N).any
              fun e => e.row == row) := by
          rw [List.any_map]
          exact list_any_congr (fun e _ => rfl)
        rw [hany]
        by_cases h3 : (((sortL (matrix ++ rowEntries m row parties)).take N).any
            fun e => e.row == row) = true
        · rw [if_pos h3, if_pos h3]
          exact ih _ _
        · rw [if_neg h3, if_neg h3]
          rw [seatsOf_scale, List.length_map]

/-- C8: multiplying every party's votes by the same positive constant
does not change the outcome of `allocate_seats` (same seat vector, same
panic or fuel behaviour, for every fuel bound). -/
theorem allocate_seats_scale_invariant (m : Method) (N : ℕ)
    (parties : List ℕ) (c : ℕ) (fuel : ℕ) (hc : 0 < c) :
    allocate_seats m N (parties.map (fun v => c * v)) fuel =
      allocate_seats m N parties fuel := by
  unfold allocate_seats
  have h := loop_scale hc m N parties fuel [] 0
  simpa using h

/-- C8 witness: D'Hondt, 2 seats, votes `[100, 50]` scaled by 3. -/
theorem allocate_seats_scale_invariant_witness :
    allocate_seats .dHondt 2 ([100, 50].map (fun v => 3 * v)) 5 =
      allocate_seats .dHondt 2 [100, 50] 5 :=
  allocate_seats_scale_invariant .dHondt 2 [100, 50] 3 5 (by decide)


/-! ### Sortedness of the insertion sort -/

theorem insertEntry_pairwise {e : Entry} {l : List Entry}
    (h : l.Pairwise (fun a b => a.q ≤ b.q)) :
    (insertEntry e l).Pairwise (fun a b => a.q ≤ b.q) := by
  induction l with
  | nil => simp [insertEntry]
  | cons x xs ih =>
    rcases List.pairwise_cons.1 h with ⟨hx, hxs⟩
    simp only [insertEntry]
    by_cases hq : x.q ≤ e.q
    · rw [if_pos hq]
      refine List.pairwise_cons.2 ⟨?_, ih hxs⟩
      intro y hy
      rcases List.mem_cons.1 ((insertEntry_perm e xs).mem_iff.1 hy) with rfl | hmem
      · exact hq
      · exact hx y hmem
    · rw [if_neg hq]
      have he : e.q ≤ x.q := le_of_not_le hq
      refine List.pairwise_cons.2 ⟨?_, h⟩
      intro y hy
      rcases List.mem_cons.1 hy with rfl | hmem
      · exact he
      · exact he.trans (hx y hmem)

theorem sortL_pairwise (l : List Entry) :
    (sortL l).Pairwise (fun a b => a.q ≤ b.q) := by
  suffices h : ∀ (l acc : List Entry), acc.Pairwise (fun a b => a.q ≤ b.q) →
      (l.foldl (fun acc e => insertEntry e acc) acc).Pairwise
        (fun a b => a.q ≤ b.q) from h l [] (by simp)
  intro l
  induction l with
  | nil => exact fun acc h => h
  | cons a t ih => exact fun acc h => ih _ (insertEntry_pairwise h)

/-- In an ascending-sorted list with at least `N` elements whose quotient
is below `c`, every element of the length-`N` prefix has quotient below `c`. -/
theorem take_lt_of_countP {c : ℚ} :
    ∀ {S : List Entry} {N : ℕ},
      S.Pairwise (fun a b => a.q ≤ b.q) →
      N ≤ S.countP (fun x => decide (x.q < c)) →
      ∀ e ∈ S.take N, e.q < c := by
  intro S
  induction S with
  | nil => intro N _ _ e he; simp at he
  | cons a T ih =>
    intro N hp hc e he
    rcases List.pairwise_cons.1 hp with ⟨ha, hT⟩
    cases N with
    | zero => simp at he
    | succ M =>
      by_cases haq : a.q < c
      · rw [List.take_succ_cons] at he
        rcases List.mem_cons.1 he with rfl | hmem
        · exact haq
        · refine ih hT ?_ e hmem
          have := hc
          rw [List.countP_cons] at this
          by_cases hq : (decide (a.q < c)) = true <;> simp [hq] at this <;> omega
      · exfalso
        have hzero : T.countP (fun x => decide (x.q < c)) = 0 := by
          rw [List.countP_eq_zero]
          intro x hx
          simp only [decide_eq_true_eq]
          intro hlt
          exact haq (lt_of_le_of_lt (ha x hx) hlt)
        rw [List.countP_cons, hzero] at hc
        simp [haq] at hc

/-! ### The full table of pushed entries -/

/-- All entries pushed during the first `T` iterations of the divisor
loop, in push order: row 0 first, then row 1, and so on. -/
def upTo (m : Method) (parties : List ℕ) (T : ℕ) : List Entry :=
  (List.range T).flatMap (fun r => rowEntries m r parties)

theorem upTo_succ (m : Method) (parties : List ℕ) (T : ℕ) :
    upTo m parties (T + 1) = upTo m parties T ++ rowEntries m T parties := by
  unfold upTo
  rw [List.range_succ, List.flatMap_append]
  simp

theorem upTo_length (m : Method) (parties : List ℕ) :
    ∀ T, (upTo m parties T).length = T * parties.length
  | 0 => by simp [upTo]
  | T + 1 => by
    rw [upTo_succ, List.length_append, upTo_length m parties T,
      rowEntries_length]
    ring

theorem mem_upTo {m : Method} {parties : List ℕ} {T : ℕ} {e : Entry} :
    e ∈ upTo m parties T ↔ ∃ r < T, e ∈ rowEntries m r parties := by
  simp [upTo]

/-! ### Extremal vote counts -/

theorem exists_max_getElem :
    ∀ (l : List ℕ), l ≠ [] →
      ∃ j, ∃ hj : j < l.length, ∀ i, ∀ hi : i < l.length, l[i] ≤ l[j] := by
  intro l
  induction l with
  | nil => intro h; exact absurd rfl h
  | cons v t ih =>
    intro _
    by_cases ht : t = []
    · subst ht
      refine ⟨0, by simp, ?_⟩
      intro i hi
      have h0 : i = 0 := by simpa using hi
      subst h0
      exact le_refl _
    · obtain ⟨j, hj, hmax⟩ := ih ht
      by_cases hv : v ≤ t[j]
      · refine ⟨j + 1, by simpa using hj, ?_⟩
        intro i hi
        cases i with
        | zero => simpa using hv
        | succ k => simpa using hmax k (by simpa using hi)
      · refine ⟨0, by simp, ?_⟩
        intro i hi
        cases i with
        | zero => exact le_refl _
        | succ k =>
          simpa using (hmax k (by simpa using hi)).trans (le_of_not_le hv)

theorem exists_min_getElem :
    ∀ (l : List ℕ), l ≠ [] →
      ∃ j, ∃ hj : j < l.length, ∀ i, ∀ hi : i < l.length, l[j] ≤ l[i] := by
  intro l
  induction l with
  | nil => intro h; exact absurd rfl h
  | cons v t ih =>
    intro _
    by_cases ht : t = []
    · subst ht
      refine ⟨0, by simp, ?_⟩
      intro i hi
      have h0 : i = 0 := by simpa using hi
      subst h0
      exact le_refl _
    · obtain ⟨j, hj, hmin⟩ := ih ht
      by_cases hv : t[j] ≤ v
      · refine ⟨j + 1, by simpa using hj, ?_⟩
        intro i hi
        cases i with
        | zero => simpa using hv
        | succ k => simpa using hmin k (by simpa using hi)
      · refine ⟨0, by simp, ?_⟩
        intro i hi
        cases i with
        | zero => exact le_refl _
        | succ k =>
          simpa using (le_of_not_le hv).trans (hmin k (by simpa using hi))

/-! ### Divisor monotonicity (all methods except Huntington-Hill) -/

theorem divisorDen_pos (m : Method) : 0 < divisorDen m := by
  cases m <;> decide

theorem divisorNum_pos {m : Method} (hm : m ≠ .huntingtonHill) (r : ℕ) :
    0 < divisorNum m r := by
  cases m
  · simp only [divisorNum]; omega
  · simp only [divisorNum]; omega
  · simp only [divisorNum]; omega
  · exact absurd rfl hm
  · simp only [divisorNum]; omega

theorem divisorNum_strictMono {m : Method} (hm : m ≠ .huntingtonHill)
    {r r' : ℕ} (h : r < r') : divisorNum m r < divisorNum m r' := by
  cases m
  · simp only [divisorNum]; omega
  · simp only [divisorNum]; omega
  · simp only [divisorNum]; omega
  · exact absurd rfl hm
  · simp only [divisorNum]; omega

theorem quotient_den_pos (m : Method) {v : ℕ} (hv : 0 < v) :
    0 < divisorDen m * (v : ℤ) :=
  mul_pos (divisorDen_pos m) (by exact_mod_cast hv)

theorem rat_divInt_lt_divInt {a b c d : ℤ} (b0 : 0 < b) (d0 : 0 < d) :
    Rat.divInt a b < Rat.divInt c d ↔ a * d < c * b := by
  rw [← not_le, Rat.divInt_le_divInt d0 b0, not_le]

/-- For every method except Huntington-Hill, quotients strictly increase
with the rank (divisors strictly increase, votes fixed). -/
theorem quotient_rank_lt {m : Method} (hm : m ≠ .huntingtonHill)
    {r r' v : ℕ} (hv : 0 < v) (h : r < r') :
    quotient m r v < quotient m r' v := by
  unfold quotient
  rw [rat_divInt_lt_divInt (quotient_den_pos m hv) (quotient_den_pos m hv)]
  exact mul_lt_mul_of_pos_right (divisorNum_strictMono hm h)
    (quotient_den_pos m hv)

/-- For every method except Huntington-Hill, at a fixed rank a party with
more votes has a smaller-or-equal quotient. -/
theorem quotient_votes_le {m : Method} (hm : m ≠ .huntingtonHill)
    {r v v' : ℕ} (hv : 0 < v) (hv' : 0 < v') (h : v ≤ v') :
    quotient m r v' ≤ quotient m r v := by
  unfold quotient
  rw [Rat.divInt_le_divInt (quotient_den_pos m hv') (quotient_den_pos m hv)]
  refine mul_le_mul_of_nonneg_left ?_ (le_of_lt (divisorNum_pos hm r))
  have : (v : ℤ) ≤ (v' : ℤ) := by exact_mod_cast h
  nlinarith [divisorDen_pos m]

/-! ### Termination for the strictly-increasing methods (claim C2) -/

/-- During the first `k ≤ N` rows, the maximal-vote party alone already
contributes `k` entries whose quotient lies strictly below its own rank-`N`
quotient. -/
theorem countP_upTo_ge {m : Method} (hm : m ≠ .huntingtonHill)
    {parties : List ℕ} (hpos : ∀ v ∈ parties, 0 < v)
    {j : ℕ} (hj : j < parties.length) (N : ℕ) :
    ∀ k, k ≤ N →
      k ≤ (upTo m parties k).countP
        (fun x => decide (x.q < quotient m N parties[j])) := by
  intro k
  induction k with
  | zero => intro _; exact Nat.zero_le _
  | succ K ih =>
    intro hKN
    rw [upTo_succ, List.countP_append]
    have hK : K ≤ (upTo m parties K).countP
        (fun x => decide (x.q < quotient m N parties[j])) := ih (by omega)
    have hone : 0 < (rowEntries m K parties).countP
        (fun x => decide (x.q < quotient m N parties[j])) := by
      rw [List.countP_pos_iff]
      refine ⟨⟨j, K, quotient m K parties[j]⟩, ?_, ?_⟩
      · exact mem_rowEntries.2 ⟨j, hj, rfl⟩
      · simp only [decide_eq_true_eq]
        exact quotient_rank_lt hm (hpos _ (List.getElem_mem hj)) (by omega)
    omega

/-- If the matrix holds exactly the entries of rows `0 … N` (as a multiset),
then after sorting none of the top `N` entries stems from row `N`: the break
condition of the divisor loop holds at row `N`. -/
theorem no_top_from_row_N {m : Method} (hm : m ≠ .huntingtonHill)
    {parties : List ℕ} (hpos : ∀ v ∈ parties, 0 < v)
    (hne : parties ≠ []) {N : ℕ} {L : List Entry}
    (hperm : L.Perm (upTo m parties (N + 1))) :
    (((sortL L).take N).any fun e => e.row == N) = false := by
  obtain ⟨j, hj, hmax⟩ := exists_max_getElem parties hne
  rw [List.any_eq_false]
  intro e he
  simp only [beq_iff_eq]
  intro hrow
  have hsortperm : (sortL L).Perm (upTo m parties (N + 1)) :=
    (sortL_perm L).trans hperm
  have hcount : N ≤ (sortL L).countP
      (fun x => decide (x.q < quotient m N parties[j])) := by
    rw [hsortperm.countP_eq, upTo_succ, List.countP_append]
    have := countP_upTo_ge hm hpos hj N N (le_refl N)
    omega
  have hlt : e.q < quotient m N parties[j] :=
    take_lt_of_countP (sortL_pairwise L) hcount e he
  have hmem : e ∈ upTo m parties (N + 1) :=
    hsortperm.mem_iff.1 (List.mem_of_mem_take he)
  obtain ⟨r, _, hrowmem⟩ := mem_upTo.1 hmem
  obtain ⟨i, hi, rfl⟩ := mem_rowEntries.1 hrowmem
  have hrN : r = N := hrow
  subst hrN
  have hge : quotient m r parties[j] ≤ quotient m r parties[i] :=
    quotient_votes_le hm (hpos _ (List.getElem_mem hi))
      (hpos _ (List.getElem_mem hj)) (hmax i hi)
  exact absurd hlt (not_lt.2 hge)

/-- For every method with strictly increasing divisors, positive votes and
a nonempty parties list, the divisor loop reaches the break within
`nb_seats + 1` iterations. -/
theorem loop_reaches_ok {m : Method} (hm : m ≠ .huntingtonHill)
    {parties : List ℕ} (hne : parties ≠ [])
    (hpos : ∀ v ∈ parties, 0 < v) (N : ℕ) :
    ∀ (fuel : ℕ) (row : ℕ) (matrix : List Entry),
      matrix.Perm (upTo m parties row) → row ≤ N → N < row + fuel →
      ∃ s, loop m N parties fuel matrix row = .ok s := by
  intro fuel
  induction fuel with
  | zero => intro row matrix _ _ h3; omega
  | succ f ih =>
    intro row matrix hperm hrowN hfuel
    have hany : ¬((parties.any fun x => x == 0) = true) := by
      intro h
      obtain ⟨x, hx, hx0⟩ := List.any_eq_true.1 h
      have : x = 0 := by simpa using hx0
      exact absurd (hpos x hx) (by omega)
    have hperm' : (matrix ++ rowEntries m row parties).Perm
        (upTo m parties (row + 1)) := by
      rw [upTo_succ]
      exact hperm.append_right _
    have hlen' : (matrix ++ rowEntries m row parties).length =
        (row + 1) * parties.length := by
      rw [hperm'.length_eq, upTo_length]
    have hn : 0 < parties.length := List.length_pos.2 hne
    simp only [loop]
    rw [if_neg hany]
    by_cases h2 : (matrix ++ rowEntries m row parties).length < N
    · have hrow' : row < N := by
        by_contra hc
        have : row = N := by omega
        subst this
        have : (row + 1) * parties.length ≥ row + 1 := by
          calc (row + 1) * parties.length ≥ (row + 1) * 1 :=
                Nat.mul_le_mul_left _ hn
            _ = row + 1 := by omega
        omega
      rw [if_pos h2]
      exact ih (row + 1) _ hperm' (by omega) (by omega)
    · rw [if_neg h2]
      by_cases h3 : (((sortL (matrix ++ rowEntries m row parties)).take N).any
          fun e => e.row == row) = true
      · have hrow' : row < N := by
          by_contra hc
          have : row = N := by omega
          subst this
          rw [no_top_from_row_N hm hpos hne hperm'] at h3
          exact absurd h3 (by simp)
        rw [if_pos h3]
        exact ih (row + 1) _ ((sortL_perm _).trans hperm') (by omega) (by omega)
      · rw [if_neg h3]
        exact ⟨_, rfl⟩

/-- C2 (amended): for every method except Huntington-Hill — exactly those
whose divisor sequence is strictly increasing in rank — and every nonempty
parties list with all-positive vote counts, `allocate_seats` terminates:
`nb_seats + 1` loop iterations always suffice, and any larger fuel bound
returns the same seat vector. -/
theorem allocate_seats_terminates (m : Method) (hm : m ≠ .huntingtonHill)
    (parties : List ℕ) (hne : parties ≠ [])
    (hpos : ∀ v ∈ parties, 0 < v) (N : ℕ) :
    ∃ s, ∀ fuel, N + 1 ≤ fuel → allocate_seats m N parties fuel = .ok s := by
  obtain ⟨s, hs⟩ := loop_reaches_ok hm hne hpos N (N + 1) 0 []
    (by rfl) (Nat.zero_le N) (by omega)
  exact ⟨s, fun fuel hf => loop_fuel_mono hs hf⟩

/-- C2 witness for the amended claim: Danish method, 3 seats,
votes `[2, 1]`. -/
theorem allocate_seats_terminates_witness :
    ∃ s, ∀ fuel, 4 ≤ fuel →
      allocate_seats .danish 3 [2, 1] fuel = .ok s :=
  allocate_seats_terminates .danish (by decide) [2, 1] (by decide)
    (by intro v hv; simp at hv; rcases hv with h | h <;> omega) 3

/-! ### Non-termination of Huntington-Hill (claim C2) -/

/-- For Huntington-Hill the divisor value `-(r+1)(r+2)` strictly decreases
with the rank, so at every rank the minimal-vote party's newest quotient is
a minimum of all entries so far — strictly below every entry of earlier
rows. -/
theorem hh_quotient_min {parties : List ℕ} (hpos : ∀ v ∈ parties, 0 < v)
    {jmin : ℕ} (hjmin : jmin < parties.length)
    (hmin : ∀ i, ∀ hi : i < parties.length, parties[jmin] ≤ parties[i])
    {row r i : ℕ} (hi : i < parties.length) (hr : r ≤ row) :
    quotient .huntingtonHill row parties[jmin] ≤
        quotient .huntingtonHill r parties[i] ∧
      (r < row → quotient .huntingtonHill row parties[jmin] <
        quotient .huntingtonHill r parties[i]) := by
  have hvmin : 0 < parties[jmin] := hpos _ (List.getElem_mem hjmin)
  have hvi : 0 < parties[i] := hpos _ (List.getElem_mem hi)
  have hminle : parties[jmin] ≤ parties[i] := hmin i hi
  unfold quotient
  constructor
  · rw [Rat.divInt_le_divInt (quotient_den_pos _ hvmin) (quotient_den_pos _ hvi)]
    simp only [divisorNum, divisorDen]
    have h1 : ((r : ℤ) + 1) * ((r : ℤ) + 2) ≤ ((row : ℤ) + 1) * ((row : ℤ) + 2) := by
      have : (r : ℤ) ≤ (row : ℤ) := by exact_mod_cast hr
      nlinarith
    have h2 : ((parties[jmin] : ℤ)) ≤ ((parties[i] : ℤ)) := by exact_mod_cast hminle
    nlinarith [h1, h2, (show (0:ℤ) < (parties[jmin] : ℤ) by exact_mod_cast hvmin),
      (show (0:ℤ) ≤ ((r : ℤ) + 1) * ((r : ℤ) + 2) by nlinarith)]
  · intro hrlt
    rw [rat_divInt_lt_divInt (quotient_den_pos _ hvmin) (quotient_den_pos _ hvi)]
    simp only [divisorNum, divisorDen]
    have h1 : ((r : ℤ) + 1) * ((r : ℤ) + 2) < ((row : ℤ) + 1) * ((row : ℤ) + 2) := by
      have : (r : ℤ) < (row : ℤ) := by exact_mod_cast hrlt
      nlinarith
    have h2 : ((parties[jmin] : ℤ)) ≤ ((parties[i] : ℤ)) := by exact_mod_cast hminle
    nlinarith [h1, h2, (show (0:ℤ) < (parties[jmin] : ℤ) by exact_mod_cast hvmin),
      (show (0:ℤ) ≤ ((r : ℤ) + 1) * ((r : ℤ) + 2) by nlinarith)]

/-- With the Huntington-Hill method, a positive seat count and all-positive
votes, the divisor loop never breaks: the newest row always contains the
minimum quotient, which lands at the head of the sorted matrix, so the
break check fails at every rank and every fuel bound is exhausted. -/
theorem hh_never_breaks {N : ℕ} {parties : List ℕ} (hN : 1 ≤ N)
    (hpos : ∀ v ∈ parties, 0 < v) :
    ∀ (fuel : ℕ) (row : ℕ) (matrix : List Entry),
      matrix.Perm (upTo .huntingtonHill parties row) →
      loop .huntingtonHill N parties fuel matrix row = .outOfFuel := by
  intro fuel
  induction fuel with
  | zero => intro row matrix _; rfl
  | succ f ih =>
    intro row matrix hperm
    have hany : ¬((parties.any fun x => x == 0) = true) := by
      intro h
      obtain ⟨x, hx, hx0⟩ := List.any_eq_true.1 h
      have : x = 0 := by simpa using hx0
      exact absurd (hpos x hx) (by omega)
    have hperm' : (matrix ++ rowEntries .huntingtonHill row parties).Perm
        (upTo .huntingtonHill parties (row + 1)) := by
      rw [upTo_succ]
      exact hperm.append_right _
    simp only [loop]
    rw [if_neg hany]
    by_cases h2 : (matrix ++ rowEntries .huntingtonHill row parties).length < N
    · rw [if_pos h2]
      exact ih (row + 1) _ hperm'
    · rw [if_neg h2]
      have hlen : 0 < (matrix ++ rowEntries .huntingtonHill row parties).length := by
        omega
      have hne : parties ≠ [] := by
        intro hemp
        subst hemp
        rw [hperm'.length_eq, upTo_length] at hlen
        simp at hlen
      obtain ⟨jmin, hjmin, hmin⟩ := exists_min_getElem parties hne
      have hSlen : 0 < (sortL (matrix ++ rowEntries .huntingtonHill row parties)).length := by
        rw [sortL_length]; exact hlen
      obtain ⟨h0, t0, hS⟩ :=
        List.exists_cons_of_ne_nil (List.length_pos.1 hSlen)
      have hSperm : (sortL (matrix ++ rowEntries .huntingtonHill row parties)).Perm
          (upTo .huntingtonHill parties (row + 1)) :=
        (sortL_perm _).trans hperm'
      have heminS : (⟨jmin, row, quotient .huntingtonHill row parties[jmin]⟩ : Entry) ∈
          sortL (matrix ++ rowEntries .huntingtonHill row parties) :=
        hSperm.mem_iff.2 (mem_upTo.2 ⟨row, by omega,
          mem_rowEntries.2 ⟨jmin, hjmin, rfl⟩⟩)
      have hpair := sortL_pairwise (matrix ++ rowEntries .huntingtonHill row parties)
      have h0le : h0.q ≤ quotient .huntingtonHill row parties[jmin] := by
        rw [hS] at heminS hpair
        rcases List.mem_cons.1 heminS with heq | hm0
        · rw [← heq]
        · exact (List.pairwise_cons.1 hpair).1 _ hm0
      have h0mem : h0 ∈ upTo .huntingtonHill parties (row + 1) := by
        rw [hS] at hSperm
        exact hSperm.mem_iff.1 (List.mem_cons_self h0 t0)
      obtain ⟨r, hrlt, hrm⟩ := mem_upTo.1 h0mem
      obtain ⟨i, hi, rfl⟩ := mem_rowEntries.1 hrm
      have hrow : r = row := by
        by_contra hc
        have hr : r < row := by omega
        have := (hh_quotient_min hpos hjmin hmin hi (le_of_lt hr)).2 hr
        exact absurd h0le (not_le.2 this)
      have h3 : (((sortL (matrix ++ rowEntries .huntingtonHill row parties)).take N).any
          fun e => e.row == row) = true := by
        obtain ⟨K, rfl⟩ : ∃ K, N = K + 1 := ⟨N - 1, by omega⟩
        rw [hS, List.take_succ_cons, List.any_cons]
        have : ((⟨i, r, quotient .huntingtonHill r parties[i]⟩ : Entry).row == row) = true := by
          simp [hrow]
        rw [this]
        rfl
      rw [if_pos h3]
      exact ih (row + 1) _ hSperm

/-- C2 counterexample: with the Huntington-Hill method — whose divisors
`-(i+1)(i+2)` are strictly *decreasing*, not increasing — `allocate_seats`
with 1 seat and votes `[1]` never returns, whatever the fuel bound. -/
theorem hh_nonterminating_cex :
    ¬ ∃ fuel s, allocate_seats .huntingtonHill 1 [1] fuel = .ok s := by
  rintro ⟨fuel, s, h⟩
  rw [allocate_seats,
    hh_never_breaks (le_refl 1) (by intro v hv; simp at hv; omega)
      fuel 0 [] (List.Perm.refl [])] at h
  exact absurd h (by simp)

/-! ### The strict ranking order (claim C7)

Rust's sort is stable, so the sorted matrix is strictly ordered by the
key (quotient, push order): among equal quotients, the entry pushed
earlier — smaller row, then smaller party index — comes first. -/

/-- Push order of two entries: earlier row first, then smaller party. -/
def pushlt (a b : Entry) : Prop :=
  a.row < b.row ∨ (a.row = b.row ∧ a.party < b.party)

/-- The strict total order in which the stable sort arranges entries:
by quotient, ties broken by push order. -/
def keylt (a b : Entry) : Prop :=
  a.q < b.q ∨ (a.q = b.q ∧ pushlt a b)

instance (a b : Entry) : Decidable (pushlt a b) := by
  unfold pushlt; infer_instance

instance (a b : Entry) : Decidable (keylt a b) := by
  unfold keylt pushlt; infer_instance

theorem pushlt_asymm {a b : Entry} (h : pushlt a b) : ¬ pushlt b a := by
  rcases h with h | ⟨h1, h2⟩ <;> rintro (h' | ⟨h1', h2'⟩) <;> omega

theorem keylt_irrefl (a : Entry) : ¬ keylt a a := by
  rintro (h | ⟨h1, h | ⟨h3, h4⟩⟩)
  · exact absurd h (lt_irrefl _)
  · exact absurd h (lt_irrefl _)
  · exact absurd h4 (lt_irrefl _)

theorem keylt_asymm {a b : Entry} (h : keylt a b) : ¬ keylt b a := by
  rcases h with h | ⟨h1, h2⟩
  · rintro (h' | ⟨h1', h2'⟩)
    · exact absurd (h.trans h') (lt_irrefl _)
    · exact absurd h (by rw [h1']; exact lt_irrefl _)
  · rintro (h' | ⟨h1', h2'⟩)
    · exact absurd h' (by rw [h1]; exact lt_irrefl _)
    · exact pushlt_asymm h2 h2'

theorem keylt_q_le {a b : Entry} (h : keylt a b) : a.q ≤ b.q := by
  rcases h with h | ⟨h1, _⟩
  · exact le_of_lt h
  · exact le_of_eq h1

theorem keylt_ne {a b : Entry} (h : keylt a b) : a ≠ b := by
  intro heq
  subst heq
  exact keylt_irrefl a h

/-- Inserting an entry that comes later in push order than everything in
an already strictly-key-sorted list keeps the list strictly key-sorted. -/
theorem insertEntry_keylt {a : Entry} {acc : List Entry}
    (hacc : acc.Pairwise keylt) (hpush : ∀ x ∈ acc, pushlt x a) :
    (insertEntry a acc).Pairwise keylt := by
  induction acc with
  | nil => simp [insertEntry]
  | cons x xs ih =>
    rcases List.pairwise_cons.1 hacc with ⟨hx, hxs⟩
    simp only [insertEntry]
    by_cases hq : x.q ≤ a.q
    · rw [if_pos hq]
      refine List.pairwise_cons.2 ⟨?_, ih hxs
        (fun y hy => hpush y (List.mem_cons_of_mem x hy))⟩
      intro y hy
      rcases List.mem_cons.1 ((insertEntry_perm a xs).mem_iff.1 hy) with rfl | hmem
      · rcases lt_or_eq_of_le hq with hlt | heq
        · exact Or.inl hlt
        · exact Or.inr ⟨heq, hpush x (List.mem_cons_self x xs)⟩
      · exact hx y hmem
    · rw [if_neg hq]
      have halt : a.q < x.q := not_le.1 hq
      refine List.pairwise_cons.2 ⟨?_, hacc⟩
      intro y hy
      rcases List.mem_cons.1 hy with rfl | hmem
      · exact Or.inl halt
      · exact Or.inl (lt_of_lt_of_le halt (keylt_q_le (hx y hmem)))

/-- Sorting a push-ordered list yields a strictly key-sorted list. -/
theorem sortL_keylt {L : List Entry} (hL : L.Pairwise pushlt) :
    (sortL L).Pairwise keylt := by
  suffices h : ∀ (L acc : List Entry), acc.Pairwise keylt →
      (∀ x ∈ acc, ∀ y ∈ L, pushlt x y) → L.Pairwise pushlt →
      (L.foldl (fun acc e => insertEntry e acc) acc).Pairwise keylt from
    h L [] (by simp) (by simp) hL
  intro L
  induction L with
  | nil => intro acc hacc _ _; exact hacc
  | cons a t ih =>
    intro acc hacc hcross hL
    rcases List.pairwise_cons.1 hL with ⟨hat, ht⟩
    simp only [List.foldl_cons]
    refine ih _ (insertEntry_keylt hacc
      (fun x hx => hcross x hx a (List.mem_cons_self a t))) ?_ ht
    intro x hx y hy
    rcases List.mem_cons.1 ((insertEntry_perm a acc).mem_iff.1 hx) with rfl | hmem
    · exact hat y hy
    · exact hcross x hmem y (List.mem_cons_of_mem a hy)

/-! ### The pushed table is push-ordered -/

theorem rowEntriesAux_pairwise_pushlt (m : Method) (r : ℕ) :
    ∀ (i : ℕ) (vs : List ℕ), (rowEntriesAux m r i vs).Pairwise pushlt := by
  intro i vs
  induction vs generalizing i with
  | nil => simp [rowEntriesAux]
  | cons v t ih =>
    simp only [rowEntriesAux]
    refine List.pairwise_cons.2 ⟨?_, ih (i + 1)⟩
    intro y hy
    obtain ⟨j, hj, rfl⟩ := mem_rowEntriesAux.1 hy
    refine Or.inr ⟨rfl, ?_⟩
    show i < i + 1 + j
    omega

theorem upTo_row_lt {m : Method} {parties : List ℕ} {T : ℕ} {e : Entry}
    (h : e ∈ upTo m parties T) : e.row < T := by
  obtain ⟨r, hr, hmem⟩ := mem_upTo.1 h
  rw [rowEntries_row_eq hmem]
  exact hr

theorem upTo_pairwise_pushlt (m : Method) (parties : List ℕ) :
    ∀ T, (upTo m parties T).Pairwise pushlt
  | 0 => by simp [upTo]
  | T + 1 => by
    rw [upTo_succ]
    refine List.pairwise_append.2
      ⟨upTo_pairwise_pushlt m parties T, rowEntriesAux_pairwise_pushlt m T 0 parties, ?_⟩
    intro a ha b hb
    have hra : a.row < T := upTo_row_lt ha
    have hrb : b.row = T := rowEntries_row_eq hb
    exact Or.inl (by omega)

/-! ### Positional characterisation of the sorted prefix -/

/-- In a strictly key-sorted list, an entry lies in the length-`N` prefix
iff it is in the list and fewer than `N` entries are strictly below it. -/
theorem mem_take_iff_countP :
    ∀ {S : List Entry}, S.Pairwise keylt → ∀ {N : ℕ} {e : Entry},
      (e ∈ S.take N ↔
        e ∈ S ∧ S.countP (fun x => decide (keylt x e)) < N) := by
  intro S
  induction S with
  | nil => intro _ N e; simp
  | cons a T ih =>
    intro hS N e
    rcases List.pairwise_cons.1 hS with ⟨ha, hT⟩
    cases N with
    | zero => simp
    | succ M =>
      rw [List.take_succ_cons]
      by_cases hea : e = a
      · subst hea
        have hcnt : (e :: T).countP (fun x => decide (keylt x e)) = 0 := by
          rw [List.countP_eq_zero]
          intro x hx
          simp only [decide_eq_true_eq]
          rcases List.mem_cons.1 hx with rfl | hmem
          · exact keylt_irrefl x
          · exact keylt_asymm (ha x hmem)
        simp [hcnt]
      · have hmemiff : e ∈ a :: T ↔ e ∈ T := by
          simp only [List.mem_cons]
          exact ⟨fun h => h.resolve_left hea, Or.inr⟩
        rw [List.mem_cons]
        constructor
        · rintro (rfl | hmem)
          · exact absurd rfl hea
          · obtain ⟨heT, hcnt⟩ := (ih hT).1 hmem
            refine ⟨hmemiff.2 heT, ?_⟩
            rw [List.countP_cons]
            have hd : (decide (keylt a e)) = true := by
              simp only [decide_eq_true_eq]
              exact ha e heT
            simp [hd]
            omega
        · rintro ⟨hmem, hcnt⟩
          have heT : e ∈ T := hmemiff.1 hmem
          refine Or.inr ((ih hT).2 ⟨heT, ?_⟩)
          rw [List.countP_cons] at hcnt
          have hd : (decide (keylt a e)) = true := by
            simp only [decide_eq_true_eq]
            exact ha e heT
          simp [hd] at hcnt
          omega

theorem nodup_of_pairwise_keylt {S : List Entry} (h : S.Pairwise keylt) :
    S.Nodup :=
  h.imp keylt_ne

/-! ### Re-sorting an already sorted matrix -/

theorem insertEntry_append_of_le {S : List Entry} {e : Entry}
    (h : ∀ x ∈ S, x.q ≤ e.q) : insertEntry e S = S ++ [e] := by
  induction S with
  | nil => rfl
  | cons x xs ih =>
    simp only [insertEntry]
    rw [if_pos (h x (List.mem_cons_self x xs)),
      ih (fun y hy => h y (List.mem_cons_of_mem x hy))]
    rfl

theorem foldl_ins_of_pairwise :
    ∀ {S acc : List Entry}, (acc ++ S).Pairwise (fun a b => a.q ≤ b.q) →
      S.foldl (fun acc e => insertEntry e acc) acc = acc ++ S := by
  intro S
  induction S with
  | nil => intro acc _; simp
  | cons a t ih =>
    intro acc h
    simp only [List.foldl_cons]
    have hins : insertEntry a acc = acc ++ [a] := by
      refine insertEntry_append_of_le ?_
      intro x hx
      exact (List.pairwise_append.1 h).2.2 x hx a (List.mem_cons_self a t)
    rw [hins, ih (by rw [List.append_assoc]; simpa using h)]
    simp

/-- Sorting an already sorted list changes nothing. -/
theorem sortL_of_pairwise {S : List Entry}
    (h : S.Pairwise (fun a b => a.q ≤ b.q)) : sortL S = S := by
  unfold sortL
  rw [foldl_ins_of_pairwise (by simpa using h)]
  simp

/-- Sorting the matrix in place between iterations does not affect the
result of later sorts: re-sorting absorbs an earlier sort. -/
theorem sortL_sortL_append (A B : List Entry) :
    sortL (sortL A ++ B) = sortL (A ++ B) := by
  show (sortL A ++ B).foldl (fun acc e => insertEntry e acc) [] =
    (A ++ B).foldl (fun acc e => insertEntry e acc) []
  rw [List.foldl_append, List.foldl_append]
  show B.foldl _ (sortL (sortL A)) = B.foldl _ (sortL A)
  rw [sortL_of_pairwise (sortL_pairwise A)]

/-! ### Characterising a normal return of the divisor loop -/

/-- A run of the divisor loop that returns a seat vector has all-positive
vote counts (otherwise the first iteration panics). -/
theorem loop_ok_pos {m : Method} {N : ℕ} {parties : List ℕ} {fuel : ℕ}
    {matrix : List Entry} {row : ℕ} {s : List ℕ}
    (h : loop m N parties fuel matrix row = .ok s) :
    ∀ v ∈ parties, 0 < v := by
  cases fuel with
  | zero => simp [loop] at h
  | succ f =>
    simp only [loop] at h
    by_cases h1 : (parties.any fun x => x == 0) = true
    · rw [if_pos h1] at h
      exact absurd h (by simp)
    · intro v hv
      by_contra hc
      have hv0 : v = 0 := by omega
      subst hv0
      exact h1 (List.any_eq_true.2 ⟨0, hv, by decide⟩)

/-- Every normal return of the divisor loop is the seat count of the top
`N` entries of the sorted full table `upTo (R+1)` for the break row `R`,
at which the break condition held and at least `N` entries existed. -/
theorem loop_ok_break {m : Method} {N : ℕ} {parties : List ℕ} :
    ∀ {fuel : ℕ} {matrix : List Entry} {row : ℕ} {s : List ℕ},
      (∀ B, sortL (matrix ++ B) = sortL (upTo m parties row ++ B)) →
      loop m N parties fuel matrix row = .ok s →
      ∃ R, row ≤ R ∧
        s = seatsOf parties.length ((sortL (upTo m parties (R + 1))).take N) ∧
        (((sortL (upTo m parties (R + 1))).take N).any
          (fun e => e.row == R)) = false ∧
        N ≤ (R + 1) * parties.length := by
  intro fuel
  induction fuel with
  | zero => intro matrix row s _ h; simp [loop] at h
  | succ f ih =>
    intro matrix row s hinv h
    have hinv' : ∀ B, sortL ((matrix ++ rowEntries m row parties) ++ B) =
        sortL (upTo m parties (row + 1) ++ B) := by
      intro B
      rw [List.append_assoc, hinv (rowEntries m row parties ++ B), upTo_succ,
        List.append_assoc]
    have hsorted : sortL (matrix ++ rowEntries m row parties) =
        sortL (upTo m parties (row + 1)) := by
      have := hinv' []
      simpa using this
    have hlen : (matrix ++ rowEntries m row parties).length =
        (row + 1) * parties.length := by
      have h1 : (sortL (matrix ++ rowEntries m row parties)).length =
          (sortL (upTo m parties (row + 1))).length := by rw [hsorted]
      rw [sortL_length, sortL_length, upTo_length] at h1
      exact h1
    simp only [loop] at h
    split at h
    · exact absurd h (by simp)
    · split at h
      · rename_i hlt
        obtain ⟨R, hR, hrest⟩ := ih hinv' h
        exact ⟨R, by omega, hrest⟩
      · split at h
        · rename_i hlt hany
          have hinv'' : ∀ B,
              sortL (sortL (matrix ++ rowEntries m row parties) ++ B) =
                sortL (upTo m parties (row + 1) ++ B) := by
            intro B
            rw [sortL_sortL_append]
            exact hinv' B
          obtain ⟨R, hR, hrest⟩ := ih hinv'' h
          exact ⟨R, by omega, hrest⟩
        · rename_i hlt hany
          refine ⟨row, le_refl row, ?_, ?_, ?_⟩
          · rw [← hsorted]
            cases h
            rfl
          · rw [← hsorted]
            exact Bool.not_eq_true _ ▸ (by simpa using hany)
          · rw [← hlen]
            omega

/-! ### The sorted prefix is stable beyond the break row -/

theorem quotient_rank_le {m : Method} (hm : m ≠ .huntingtonHill)
    {r r' v : ℕ} (hv : 0 < v) (h : r ≤ r') :
    quotient m r v ≤ quotient m r' v := by
  rcases lt_or_eq_of_le h with hlt | heq
  · exact le_of_lt (quotient_rank_lt hm hv hlt)
  · rw [heq]

/-- When the break condition holds at row `R`, every entry of the sorted
prefix has quotient at most every party's rank-`R` quotient (each rank-`R`
entry sits beyond the prefix of the ascending-sorted matrix). -/
theorem break_bound {m : Method} {parties : List ℕ} {N R : ℕ}
    (hany : (((sortL (upTo m parties (R + 1))).take N).any
      (fun e => e.row == R)) = false) :
    ∀ x ∈ (sortL (upTo m parties (R + 1))).take N,
      ∀ i, ∀ hi : i < parties.length, x.q ≤ quotient m R parties[i] := by
  intro x hx i hi
  have hyS : (⟨i, R, quotient m R parties[i]⟩ : Entry) ∈
      sortL (upTo m parties (R + 1)) :=
    mem_sortL.2 (mem_upTo.2 ⟨R, by omega, mem_rowEntries.2 ⟨i, hi, rfl⟩⟩)
  have hynotake : (⟨i, R, quotient m R parties[i]⟩ : Entry) ∉
      (sortL (upTo m parties (R + 1))).take N := by
    intro hmem
    have := List.any_eq_false.1 hany _ hmem
    simp at this
  have hydrop : (⟨i, R, quotient m R parties[i]⟩ : Entry) ∈
      (sortL (upTo m parties (R + 1))).drop N := by
    rcases List.mem_append.1 (by
      rw [List.take_append_drop]
      exact hyS : (⟨i, R, quotient m R parties[i]⟩ : Entry) ∈
        (sortL (upTo m parties (R + 1))).take N ++
          (sortL (upTo m parties (R + 1))).drop N) with hmem | hmem
    · exact absurd hmem hynotake
    · exact hmem
  have hpair := sortL_pairwise (upTo m parties (R + 1))
  rw [← List.take_append_drop N (sortL (upTo m parties (R + 1)))] at hpair
  exact (List.pairwise_append.1 hpair).2.2 x hx _ hydrop

theorem insertEntry_length (e : Entry) (S : List Entry) :
    (insertEntry e S).length = S.length + 1 :=
  (insertEntry_perm e S).length_eq

/-- Inserting an entry whose quotient is at least everything in the
length-`N` prefix of a list with at least `N` elements keeps that prefix. -/
theorem take_insertEntry {e : Entry} :
    ∀ {S : List Entry} {N : ℕ}, N ≤ S.length →
      (∀ x ∈ S.take N, x.q ≤ e.q) →
      (insertEntry e S).take N = S.take N := by
  intro S
  induction S with
  | nil =>
    intro N hN _
    have : N = 0 := by simpa using hN
    subst this
    rfl
  | cons x xs ih =>
    intro N hN h
    cases N with
    | zero => rfl
    | succ M =>
      have hx : x.q ≤ e.q := h x (by
        rw [List.take_succ_cons]
        exact List.mem_cons_self x _)
      simp only [insertEntry]
      rw [if_pos hx, List.take_succ_cons, List.take_succ_cons]
      rw [ih (by simpa using hN) (fun y hy => h y (by
        rw [List.take_succ_cons]
        exact List.mem_cons_of_mem x hy))]

/-- Folding a batch of entries, all of quotient at least everything in the
length-`N` prefix, into a list of length at least `N` keeps that prefix. -/
theorem take_foldl_ins :
    ∀ {B S : List Entry} {N : ℕ}, N ≤ S.length →
      (∀ b ∈ B, ∀ x ∈ S.take N, x.q ≤ b.q) →
      (B.foldl (fun acc e => insertEntry e acc) S).take N = S.take N := by
  intro B
  induction B with
  | nil => intro S N _ _; rfl
  | cons b B' ih =>
    intro S N hN h
    simp only [List.foldl_cons]
    have htake : (insertEntry b S).take N = S.take N :=
      take_insertEntry hN (h b (List.mem_cons_self b B'))
    rw [ih (by rw [insertEntry_length]; omega) ?_, htake]
    intro c hc x hx
    rw [htake] at hx
    exact h c (List.mem_cons_of_mem b hc) x hx

/-- Once the break condition holds at row `R`, generating further rows does
not change the sorted top-`N` prefix. -/
theorem take_const_after_break {m : Method} (hm : m ≠ .huntingtonHill)
    {parties : List ℕ} (hpos : ∀ v ∈ parties, 0 < v) {N R : ℕ}
    (hNlen : N ≤ (R + 1) * parties.length)
    (hany : (((sortL (upTo m parties (R + 1))).take N).any
      (fun e => e.row == R)) = false) :
    ∀ T, R + 1 ≤ T →
      (sortL (upTo m parties T)).take N =
        (sortL (upTo m parties (R + 1))).take N := by
  intro T
  induction T with
  | zero => intro h; omega
  | succ T' ih =>
    intro hT
    rcases Nat.lt_or_ge R T' with hlt | hge
    · have hstep : sortL (upTo m parties (T' + 1)) =
          (rowEntries m T' parties).foldl (fun acc e => insertEntry e acc)
            (sortL (upTo m parties T')) := by
        rw [upTo_succ]
        show (upTo m parties T' ++ rowEntries m T' parties).foldl
          (fun acc e => insertEntry e acc) [] = _
        rw [List.foldl_append]
        rfl
      have hprev := ih (by omega)
      rw [hstep, take_foldl_ins ?hlen ?hq, hprev]
      case hlen =>
        rw [sortL_length, upTo_length]
        calc N ≤ (R + 1) * parties.length := hNlen
          _ ≤ T' * parties.length := Nat.mul_le_mul_right _ (by omega)
      case hq =>
        intro b hb x hx
        rw [hprev] at hx
        obtain ⟨i, hi, rfl⟩ := mem_rowEntries.1 hb
        have hxb : x.q ≤ quotient m R parties[i] :=
          break_bound hany x hx i hi
        exact hxb.trans (quotient_rank_le hm
          (hpos _ (List.getElem_mem hi)) (by omega))
    · have : T' + 1 = R + 1 := by omega
      rw [this]

/-! ### Raising one party's votes, entrywise -/

/-- The entry table of `parties.set p w` is the entry table of `parties`
with party `p`'s quotients recomputed from `w`. -/
def tr (m : Method) (p w : ℕ) (e : Entry) : Entry :=
  if e.party = p then ⟨e.party, e.row, quotient m e.row w⟩ else e

theorem tr_row (m : Method) (p w : ℕ) (e : Entry) : (tr m p w e).row = e.row := by
  unfold tr; split <;> rfl

theorem tr_party (m : Method) (p w : ℕ) (e : Entry) :
    (tr m p w e).party = e.party := by
  unfold tr; split <;> rfl

theorem map_tr_id {m : Method} {p w : ℕ} :
    ∀ {l : List Entry}, (∀ e ∈ l, e.party ≠ p) → l.map (tr m p w) = l
  | [], _ => rfl
  | e :: t, h => by
    rw [List.map_cons, map_tr_id (fun x hx => h x (List.mem_cons_of_mem e hx))]
    unfold tr
    rw [if_neg (h e (List.mem_cons_self e t))]

theorem rowEntriesAux_set (m : Method) (r w : ℕ) :
    ∀ (vs : List ℕ) (i pp : ℕ),
      rowEntriesAux m r i (vs.set pp w) =
        (rowEntriesAux m r i vs).map (tr m (i + pp) w) := by
  intro vs
  induction vs with
  | nil => intro i pp; rfl
  | cons a t ih =>
    intro i pp
    cases pp with
    | zero =>
      show rowEntriesAux m r i (w :: t) = _
      simp only [rowEntriesAux, List.map_cons, List.cons.injEq]
      constructor
      · show (⟨i, r, quotient m r w⟩ : Entry) = tr m (i + 0) w ⟨i, r, quotient m r a⟩
        unfold tr
        rw [if_pos (show (⟨i, r, quotient m r a⟩ : Entry).party = i + 0 by
          show i = i + 0; omega)]
      · rw [map_tr_id]
        intro e he
        obtain ⟨j, hj, rfl⟩ := mem_rowEntriesAux.1 he
        show i + 1 + j ≠ i + 0
        omega
    | succ pq =>
      show rowEntriesAux m r i (a :: t.set pq w) = _
      simp only [rowEntriesAux, List.map_cons, List.cons.injEq]
      constructor
      · show (⟨i, r, quotient m r a⟩ : Entry) = tr m (i + (pq + 1)) w ⟨i, r, quotient m r a⟩
        unfold tr
        rw [if_neg (show ¬(⟨i, r, quotient m r a⟩ : Entry).party = i + (pq + 1) by
          show ¬i = i + (pq + 1); omega)]
      · have harith : i + (pq + 1) = (i + 1) + pq := by omega
        rw [harith, ih (i + 1) pq]

theorem rowEntries_set (m : Method) (r : ℕ) (parties : List ℕ) (p w : ℕ) :
    rowEntries m r (parties.set p w) =
      (rowEntries m r parties).map (tr m p w) := by
  unfold rowEntries
  rw [rowEntriesAux_set m r w parties 0 p, Nat.zero_add]

theorem upTo_set (m : Method) (parties : List ℕ) (p w : ℕ) :
    ∀ T, upTo m (parties.set p w) T = (upTo m parties T).map (tr m p w)
  | 0 => rfl
  | T + 1 => by
    rw [upTo_succ, upTo_succ, upTo_set m parties p w T, rowEntries_set,
      List.map_append]

/-! ### Comparisons between quotients, with votes substituted -/

theorem quotient_le_iff {m : Method} {r r' u : ℕ} (hu : 0 < u) :
    quotient m r u ≤ quotient m r' u ↔ divisorNum m r ≤ divisorNum m r' := by
  unfold quotient
  rw [Rat.divInt_le_divInt (quotient_den_pos m hu) (quotient_den_pos m hu)]
  exact mul_le_mul_right (quotient_den_pos m hu)

theorem quotient_lt_iff {m : Method} {r r' u : ℕ} (hu : 0 < u) :
    quotient m r u < quotient m r' u ↔ divisorNum m r < divisorNum m r' := by
  rw [← not_le, quotient_le_iff hu, not_le]

theorem quotient_eq_iff {m : Method} {r r' u : ℕ} (hu : 0 < u) :
    quotient m r u = quotient m r' u ↔ divisorNum m r = divisorNum m r' := by
  rw [le_antisymm_iff, le_antisymm_iff, quotient_le_iff hu, quotient_le_iff hu]

/-- Key comparisons against party `p`'s entries only tighten when `p`'s
votes are raised from `v[p]` to `w`: any entry of the raised table that is
ranked strictly below `p`'s (raised) rank-`r` entry was also ranked
strictly below `p`'s original rank-`r` entry. -/
theorem keylt_tr_to_keylt {m : Method} (hm : m ≠ .huntingtonHill)
    {parties : List ℕ} (hpos : ∀ v ∈ parties, 0 < v) {p w : ℕ}
    (hp : p < parties.length) (hw : parties[p] ≤ w) {T r : ℕ} {x : Entry}
    (hx : x ∈ upTo m parties T)
    (h : keylt (tr m p w x) (tr m p w ⟨p, r, quotient m r parties[p]⟩)) :
    keylt x ⟨p, r, quotient m r parties[p]⟩ := by
  have hvp : 0 < parties[p] := hpos _ (List.getElem_mem hp)
  have hwpos : 0 < w := by omega
  have htrE : tr m p w ⟨p, r, quotient m r parties[p]⟩ =
      ⟨p, r, quotient m r w⟩ := by
    unfold tr
    rw [if_pos rfl]
  obtain ⟨r0, hr0, hrm⟩ := mem_upTo.1 hx
  obtain ⟨i, hi, rfl⟩ := mem_rowEntries.1 hrm
  by_cases hxp : i = p
  · subst hxp
    have htrx : tr m i w ⟨i, r0, quotient m r0 parties[i]⟩ =
        ⟨i, r0, quotient m r0 w⟩ := by
      unfold tr
      rw [if_pos rfl]
    rw [htrx, htrE] at h
    rcases h with h | ⟨h1, h2⟩
    · exact Or.inl ((quotient_lt_iff hvp).2 ((quotient_lt_iff hwpos).1 h))
    · exact Or.inr ⟨(quotient_eq_iff hvp).2 ((quotient_eq_iff hwpos).1 h1), h2⟩
  · have htrx : tr m p w ⟨i, r0, quotient m r0 parties[i]⟩ =
        ⟨i, r0, quotient m r0 parties[i]⟩ := by
      unfold tr
      rw [if_neg hxp]
    rw [htrx, htrE] at h
    have hqle : quotient m r w ≤ quotient m r parties[p] :=
      quotient_votes_le hm hvp hwpos hw
    rcases h with h | ⟨h1, h2⟩
    · exact Or.inl (lt_of_lt_of_le h hqle)
    · have h1' : quotient m r0 parties[i] = quotient m r w := h1
      have hxle : quotient m r0 parties[i] ≤ quotient m r parties[p] := by
        rw [h1']
        exact hqle
      rcases lt_or_eq_of_le hxle with hlt | heq
      · exact Or.inl hlt
      · exact Or.inr ⟨heq, h2⟩

/-! ### Reading one party's seat count off the fold -/

theorem getD_set (l : List ℕ) :
    ∀ (i j x : ℕ), (l.set i x).getD j 0 =
      if i = j ∧ i < l.length then x else l.getD j 0 := by
  induction l with
  | nil => intro i j x; simp
  | cons a t ih =>
    intro i j x
    cases i with
    | zero =>
      cases j with
      | zero => simp
      | succ j' => simp
    | succ i' =>
      cases j with
      | zero => simp
      | succ j' =>
        show (t.set i' x).getD j' 0 = _
        rw [ih i' j' x]
        by_cases hc : i' = j' ∧ i' < t.length
        · obtain ⟨h1, h2⟩ := hc
          rw [if_pos ⟨h1, h2⟩, if_pos ⟨by omega, by simpa using Nat.succ_lt_succ h2⟩]
        · rw [if_neg hc, if_neg (by
            intro ⟨h1, h2⟩
            exact hc ⟨by omega, by simpa using h2⟩)]
          rfl

theorem getD_replicate_zero : ∀ (n p : ℕ), (List.replicate n (0 : ℕ)).getD p 0 = 0
  | 0, _ => rfl
  | _ + 1, 0 => rfl
  | n + 1, p + 1 => getD_replicate_zero n p

theorem seatsOf_foldl_getD :
    ∀ (top : List Entry) (acc : List ℕ) (p : ℕ), p < acc.length →
      (∀ e ∈ top, e.party < acc.length) →
      (top.foldl (fun seats e => seats.set e.party (seats.getD e.party 0 + 1))
        acc).getD p 0 =
        acc.getD p 0 + top.countP (fun e => decide (e.party = p)) := by
  intro top
  induction top with
  | nil => intro acc p _ _; simp
  | cons e t ih =>
    intro acc p hp htop
    simp only [List.foldl_cons]
    have he : e.party < acc.length := htop e (List.mem_cons_self e t)
    have hlen : (acc.set e.party (acc.getD e.party 0 + 1)).length = acc.length := by
      simp
    rw [ih _ p (by omega) (fun x hx => by
      rw [hlen]
      exact htop x (List.mem_cons_of_mem e hx))]
    rw [getD_set acc e.party p _, List.countP_cons]
    by_cases hc : e.party = p
    · rw [if_pos ⟨hc, he⟩]
      simp [hc]
      omega
    · rw [if_neg (by intro ⟨h1, _⟩; exact hc h1)]
      simp [hc]

theorem seatsOf_getD (n : ℕ) (top : List Entry) (p : ℕ) (hp : p < n)
    (htop : ∀ e ∈ top, e.party < n) :
    (seatsOf n top).getD p 0 = top.countP (fun e => decide (e.party = p)) := by
  unfold seatsOf
  rw [seatsOf_foldl_getD top (List.replicate n 0) p (by simpa using hp)
    (fun e he => by simpa using htop e he)]
  rw [getD_replicate_zero]
  omega

/-! ### Raising one party's votes never loses it a ranked slot -/

theorem upTo_party_lt {m : Method} {parties : List ℕ} {T : ℕ} {e : Entry}
    (h : e ∈ upTo m parties T) : e.party < parties.length := by
  obtain ⟨r, _, hrm⟩ := mem_upTo.1 h
  exact rowEntries_party_lt hrm

theorem upTo_party_eq {m : Method} {v : List ℕ} {T : ℕ} {e : Entry} {p : ℕ}
    (hp : p < v.length) (he : e ∈ upTo m v T) (hep : e.party = p) :
    e = ⟨p, e.row, quotient m e.row v[p]⟩ ∧ e.row < T := by
  obtain ⟨r, hr, hrm⟩ := mem_upTo.1 he
  obtain ⟨i, hi, rfl⟩ := mem_rowEntries.1 hrm
  have hip : i = p := hep
  subst hip
  exact ⟨rfl, hr⟩

/-- The heart of the monotonicity proof: within the sorted top-`N` prefix
of the full table up to row `T`, party `p` holds at least as many slots
after its votes are raised from `parties[p]` to `w`. -/
theorem countP_party_take_le {m : Method} (hm : m ≠ .huntingtonHill)
    {parties : List ℕ} (hpos : ∀ v ∈ parties, 0 < v) {p w : ℕ}
    (hp : p < parties.length) (hw : parties[p] ≤ w) (N T : ℕ) :
    ((sortL (upTo m parties T)).take N).countP (fun e => decide (e.party = p)) ≤
      ((sortL (upTo m (parties.set p w) T)).take N).countP
        (fun e => decide (e.party = p)) := by
  have hSkey : (sortL (upTo m parties T)).Pairwise keylt :=
    sortL_keylt (upTo_pairwise_pushlt m parties T)
  have hS'key : (sortL (upTo m (parties.set p w) T)).Pairwise keylt :=
    sortL_keylt (upTo_pairwise_pushlt m (parties.set p w) T)
  have hKnodup : ((sortL (upTo m parties T)).take N).Nodup :=
    (nodup_of_pairwise_keylt hSkey).sublist (List.take_sublist N _)
  -- the rows at which party p holds a slot, before and after the raise
  have hrows_sub :
      (((sortL (upTo m parties T)).take N).filter
          (fun e => decide (e.party = p))).map (fun e => e.row) ⊆
        (((sortL (upTo m (parties.set p w) T)).take N).filter
          (fun e => decide (e.party = p))).map (fun e => e.row) := by
    intro r hr
    obtain ⟨e, hef, her⟩ := List.mem_map.1 hr
    obtain ⟨heK, hepb⟩ := List.mem_filter.1 hef
    have hep : e.party = p := by simpa using hepb
    have heU : e ∈ upTo m parties T :=
      mem_sortL.1 (List.mem_of_mem_take heK)
    obtain ⟨hee, _⟩ := upTo_party_eq hp heU hep
    have herow : e.row = r := her
    have heE : e = ⟨p, r, quotient m r parties[p]⟩ := by rw [hee, herow]
    rw [heE] at heK
    obtain ⟨heS, hecnt⟩ := (mem_take_iff_countP hSkey).1 heK
    have hcntU : (upTo m parties T).countP
        (fun x => decide (keylt x ⟨p, r, quotient m r parties[p]⟩)) < N := by
      rw [← (sortL_perm (upTo m parties T)).countP_eq]
      exact hecnt
    have hEU : (⟨p, r, quotient m r parties[p]⟩ : Entry) ∈ upTo m parties T :=
      mem_sortL.1 heS
    have htrE : tr m p w ⟨p, r, quotient m r parties[p]⟩ =
        ⟨p, r, quotient m r w⟩ := by
      unfold tr
      rw [if_pos rfl]
    have hE'U : (⟨p, r, quotient m r w⟩ : Entry) ∈
        upTo m (parties.set p w) T := by
      rw [upTo_set]
      rw [← htrE]
      exact List.mem_map_of_mem _ hEU
    have hcnt' : (sortL (upTo m (parties.set p w) T)).countP
        (fun x => decide (keylt x ⟨p, r, quotient m r w⟩)) < N := by
      rw [(sortL_perm _).countP_eq, upTo_set, List.countP_map]
      calc (upTo m parties T).countP
            ((fun x => decide (keylt x ⟨p, r, quotient m r w⟩)) ∘ tr m p w) ≤
          (upTo m parties T).countP
            (fun x => decide (keylt x ⟨p, r, quotient m r parties[p]⟩)) := by
            refine List.countP_mono_left ?_
            intro x hx hd
            simp only [Function.comp, decide_eq_true_eq] at hd
            simp only [decide_eq_true_eq]
            refine keylt_tr_to_keylt hm hpos hp hw hx ?_
            rw [htrE]
            exact hd
        _ < N := hcntU
    have hE'K : (⟨p, r, quotient m r w⟩ : Entry) ∈
        (sortL (upTo m (parties.set p w) T)).take N :=
      (mem_take_iff_countP hS'key).2 ⟨mem_sortL.2 hE'U, hcnt'⟩
    refine List.mem_map.2 ⟨⟨p, r, quotient m r w⟩, List.mem_filter.2 ⟨hE'K, by simp⟩, rfl⟩
  have hrows_nodup :
      ((((sortL (upTo m parties T)).take N).filter
        (fun e => decide (e.party = p))).map (fun e => e.row)).Nodup := by
    refine List.Nodup.map_on ?_ (hKnodup.filter _)
    intro x hx y hy hxy
    obtain ⟨hxK, hxpb⟩ := List.mem_filter.1 hx
    obtain ⟨hyK, hypb⟩ := List.mem_filter.1 hy
    obtain ⟨hxe, _⟩ := upTo_party_eq hp (mem_sortL.1 (List.mem_of_mem_take hxK))
      (by simpa using hxpb)
    obtain ⟨hye, _⟩ := upTo_party_eq hp (mem_sortL.1 (List.mem_of_mem_take hyK))
      (by simpa using hypb)
    rw [hxe, hye, hxy]
  rw [List.countP_eq_length_filter, List.countP_eq_length_filter]
  have h1 : (((sortL (upTo m parties T)).take N).filter
      (fun e => decide (e.party = p))).length =
      ((((sortL (upTo m parties T)).take N).filter
        (fun e => decide (e.party = p))).map (fun e => e.row)).length := by
    rw [List.length_map]
  have h4 : ((((sortL (upTo m (parties.set p w) T)).take N).filter
      (fun e => decide (e.party = p))).map (fun e => e.row)).length =
      (((sortL (upTo m (parties.set p w) T)).take N).filter
        (fun e => decide (e.party = p))).length := by
    rw [List.length_map]
  rw [h1, ← h4, ← List.toFinset_card_of_nodup hrows_nodup]
  refine le_trans (Finset.card_le_card ?_) (List.toFinset_card_le _)
  intro a ha
  rw [List.mem_toFinset] at ha ⊢
  exact hrows_sub ha

/-- A normal Huntington-Hill return forces `nb_seats = 0` and the all-zero
seat vector (for positive seat counts its loop never breaks). -/
theorem hh_ok_zero_seats {N : ℕ} {parties : List ℕ} {fuel : ℕ} {s : List ℕ}
    (h : allocate_seats .huntingtonHill N parties fuel = .ok s) :
    N = 0 ∧ s = List.replicate parties.length 0 := by
  have hpos : ∀ v ∈ parties, 0 < v := loop_ok_pos h
  have hN : N = 0 := by
    by_contra hc
    rw [allocate_seats, hh_never_breaks (by omega) hpos fuel 0 []
      (List.Perm.refl [])] at h
    exact absurd h (by simp)
  subst hN
  refine ⟨rfl, ?_⟩
  have hf : 0 < fuel := by
    by_contra hc
    have : fuel = 0 := by omega
    subst this
    simp [allocate_seats, loop] at h
  rw [allocate_seats_zero_aux .huntingtonHill parties fuel hpos hf] at h
  cases h
  rfl

/-- C7: for every method, raising one party's vote count (all other votes
fixed) never decreases that party's seat count, whenever both runs return
a seat vector. -/
theorem allocate_seats_monotone (m : Method) (N : ℕ) (parties : List ℕ)
    (p w : ℕ) (fuel fuel' : ℕ) (s s' : List ℕ)
    (hp : p < parties.length) (hw : parties[p] ≤ w)
    (h : allocate_seats m N parties fuel = .ok s)
    (h' : allocate_seats m N (parties.set p w) fuel' = .ok s') :
    s.getD p 0 ≤ s'.getD p 0 := by
  have hpos : ∀ v ∈ parties, 0 < v := loop_ok_pos h
  have hpos' : ∀ v ∈ parties.set p w, 0 < v := loop_ok_pos h'
  by_cases hm : m = .huntingtonHill
  · subst hm
    obtain ⟨hN, rfl⟩ := hh_ok_zero_seats h
    obtain ⟨hN', rfl⟩ := hh_ok_zero_seats h'
    rw [getD_replicate_zero, getD_replicate_zero]
  · have hinv0 : ∀ B : List Entry, sortL (([] : List Entry) ++ B) =
        sortL (upTo m parties 0 ++ B) := fun B => rfl
    have hinv0' : ∀ B : List Entry, sortL (([] : List Entry) ++ B) =
        sortL (upTo m (parties.set p w) 0 ++ B) := fun B => rfl
    obtain ⟨R1, _, hs, hbrk1, hN1⟩ := loop_ok_break hinv0 h
    obtain ⟨R2, _, hs', hbrk2, hN2⟩ := loop_ok_break hinv0' h'
    have hlenset : (parties.set p w).length = parties.length :=
      List.length_set parties p w
    have hK1 : (sortL (upTo m parties (max R1 R2 + 1))).take N =
        (sortL (upTo m parties (R1 + 1))).take N :=
      take_const_after_break hm hpos hN1 hbrk1 (max R1 R2 + 1)
        (by omega)
    have hK2 : (sortL (upTo m (parties.set p w) (max R1 R2 + 1))).take N =
        (sortL (upTo m (parties.set p w) (R2 + 1))).take N :=
      take_const_after_break hm hpos' hN2 hbrk2 (max R1 R2 + 1)
        (by omega)
    have hsgetD : s.getD p 0 =
        ((sortL (upTo m parties (max R1 R2 + 1))).take N).countP
          (fun e => decide (e.party = p)) := by
      rw [hs, hK1]
      exact seatsOf_getD _ _ p hp (fun e he =>
        upTo_party_lt (mem_sortL.1 (List.mem_of_mem_take he)))
    have hs'getD : s'.getD p 0 =
        ((sortL (upTo m (parties.set p w) (max R1 R2 + 1))).take N).countP
          (fun e => decide (e.party = p)) := by
      rw [hs', hK2]
      refine seatsOf_getD _ _ p (by omega) (fun e he => ?_)
      exact upTo_party_lt (mem_sortL.1 (List.mem_of_mem_take he))
    rw [hsgetD, hs'getD]
    exact countP_party_take_le hm hpos hp hw N (max R1 R2 + 1)

/-- C7 witness: D'Hondt, one seat, votes `[1, 1]` (party 0 wins the tie,
party 1 gets 0 seats); raising party 1's votes to `[1, 2]` gives it the
seat. -/
theorem allocate_seats_monotone_witness :
    allocate_seats .dHondt 1 [1, 1] 5 = .ok [1, 0] ∧
      allocate_seats .dHondt 1 ([1, 1].set 1 2) 5 = .ok [0, 1] ∧
      ([1, 0] : List ℕ).getD 1 0 ≤ ([0, 1] : List ℕ).getD 1 0 :=
  ⟨by decide, by decide,
    allocate_seats_monotone .dHondt 1 [1, 1] 1 2 5 5 [1, 0] [0, 1]
      (by decide) (by decide) (by decide) (by decide)⟩
